import Mathlib

/-!
# Verification of the `ophio` stack-trace grouping enhancement engine

A shallow embedding of the Rust sources under `src/rust/src/enhancers` (with
the Python-binding glue from `src/bindings/src/enhancers.rs` where noted),
together with theorems settling the specification claims about matchers,
the modifier pass, the updater pass, and the compact binary encoding.

Modelling conventions:

* Rust slices/vectors of frames and components become Lean `List`s; in-place
  mutation of a slice becomes a function returning the updated list.
* `usize` becomes `Nat`.  `checked_add` on a list index is modelled as total
  (`usize` overflow is unreachable for indices of materialized slices).
* The external `globset`/`regex` crates are not code of this repository.
  Compiled regexes are represented by their construction key, the pair of the
  raw pattern string and the `path_like` flag (exactly the regex-cache key in
  `cache.rs`), and regex evaluation is an explicit parameter `rsem` of the
  matching functions (`rsem pattern path_like value` stands for
  `translate_pattern(pattern, path_like).is_match(value)`).
  All repository-level logic around those calls is embedded faithfully.
* Fallible operations (`unwrap`, decode errors) return `Option`/`Except`.
-/

namespace Ophio

/-- Semantics of the external glob→regex engine: given the raw pattern, the
`path_like` flag it was compiled with, and a candidate value, decide the match.
This stands for `translate_pattern(pat, path_like).is_match(value)` from
`matchers.rs`; the translation itself lives in the external crates. -/
abbrev RegexSem := String → Bool → String → Bool

instance {ε α : Type _} [DecidableEq ε] [DecidableEq α] : DecidableEq (Except ε α) :=
  fun a b =>
    match a, b with
    | .error e, .error e' =>
      if h : e = e' then .isTrue (by rw [h]) else .isFalse (fun h' => h (Except.error.inj h'))
    | .error _, .ok _ => .isFalse (fun h' => Except.noConfusion h')
    | .ok _, .error _ => .isFalse (fun h' => Except.noConfusion h')
    | .ok x, .ok x' =>
      if h : x = x' then .isTrue (by rw [h]) else .isFalse (fun h' => h (Except.ok.inj h'))

/-- `enhancers/actions.rs`: the range of a flag action (`^` = Up, `v` = Down). -/
inductive Range where
  | up
  | down
deriving DecidableEq, Repr

/-- `enhancers/actions.rs`: which flag a `FlagAction` sets. -/
inductive FlagActionType where
  | app
  | group
  | prefixTy
  | sentinel
deriving DecidableEq, Repr

/-- `enhancers/actions.rs`: a flag action `range? (+|-) flag`. -/
structure FlagAction where
  flag : Bool
  ty : FlagActionType
  range : Option Range
deriving DecidableEq, Repr

/-- `enhancers/actions.rs`: a var action `name = value`. -/
inductive VarAction where
  | minFrames (value : Nat)
  | maxFrames (value : Nat)
  | category (value : String)
  | invertStacktrace (value : Bool)
deriving DecidableEq, Repr

/-- `enhancers/actions.rs`: an action is a flag action or a var action. -/
inductive Action where
  | flag (action : FlagAction)
  | var (action : VarAction)
deriving DecidableEq, Repr

/-- `enhancers/matchers.rs`: whether a frame matcher applies to the current
frame or one of the adjacent frames. -/
inductive FrameOffset where
  | caller
  | callee
  | none
deriving DecidableEq, Repr

/-- `enhancers/frame.rs`: the string-valued (or family) fields of a frame a
field matcher can select. -/
inductive FrameField where
  | category
  | family
  | function
  | module
  | package
  | path
deriving DecidableEq, Repr

/-- `enhancers/matchers.rs` `FrameMatcherInner`: the payload of a frame
matcher.  The compiled regex of a `Field` matcher is represented by its
construction key `(pattern, path_like)`; see `RegexSem`. -/
inductive FrameMatcherInner where
  /-- Checks a field of the frame against a (compiled) pattern. -/
  | field (fld : FrameField) (path_like : Bool) (pattern : String)
  /-- Checks whether the frame's family is one of the allowed families. -/
  | family (native : Bool) (javascript : Bool)
  /-- Checks whether the frame's `in_app` equals the expected value. -/
  | inApp (expected : Bool)
deriving DecidableEq, Repr

/-- `enhancers/matchers.rs` `FrameMatcher`. -/
structure FrameMatcher where
  negated : Bool
  frame_offset : FrameOffset
  inner : FrameMatcherInner
  raw_pattern : String
deriving DecidableEq, Repr

/-- `enhancers/matchers.rs` `ExceptionMatcherType`. -/
inductive ExceptionMatcherType where
  | type_
  | value
  | mechanism
deriving DecidableEq, Repr

/-- `enhancers/matchers.rs` `ExceptionMatcher`; the compiled regex is again
represented by its raw pattern (exception patterns are never path-like). -/
structure ExceptionMatcher where
  negated : Bool
  ty : ExceptionMatcherType
  raw_pattern : String
deriving DecidableEq, Repr

/-- `enhancers/matchers.rs` `Matcher`: a frame or exception matcher. -/
inductive Matcher where
  | frame (m : FrameMatcher)
  | exception (m : ExceptionMatcher)
deriving DecidableEq, Repr

/-- `enhancers/rules.rs` `Rule` / `RuleInner`.  The Rust `Rule` is an
`Arc<RuleInner>`; sharing is not observable, so the wrapper is elided. -/
structure Rule where
  frame_matchers : List FrameMatcher
  exception_matchers : List ExceptionMatcher
  actions : List Action
deriving DecidableEq, Repr

/-- The frame record of the engine.  Fields are those the engine code reads
and writes: the optional string fields and tri-state `in_app` of
`enhancers/frame.rs`, plus `in_app_last_changed` (read by
`Enhancements::update_frame_components_contributions` in `enhancers/mod.rs`
and initialized by `convert_frame_from_py` in `bindings/src/enhancers.rs`)
and `orig_in_app` (read by `FlagAction::in_app_changed` in
`enhancers/actions.rs`). -/
structure Frame where
  category : Option String := Option.none
  family : Option String := Option.none
  function : Option String := Option.none
  in_app : Option Bool := Option.none
  in_app_last_changed : Option Rule := Option.none
  orig_in_app : Option Bool := Option.none
  module : Option String := Option.none
  package : Option String := Option.none
  path : Option String := Option.none
deriving DecidableEq, Repr

/-- `enhancers/mod.rs` `ExceptionData`. -/
structure ExceptionData where
  ty : Option String := Option.none
  value : Option String := Option.none
  mechanism : Option String := Option.none
deriving DecidableEq, Repr

/-- `enhancers/frame.rs` `Frame::get_field`. -/
def Frame.get_field (frame : Frame) : FrameField → Option String
  | .category => frame.category
  | .family => frame.family
  | .function => frame.function
  | .module => frame.module
  | .package => frame.package
  | .path => frame.path

/-- Rust's `str::split(',')`, on the character list (structural recursion so
that proofs can evaluate it; `String.splitOn` is defined by well-founded
recursion on byte positions and does not reduce in the kernel).  Splitting
the empty string yields `[""]`, as in Rust. -/
def splitOnCommaGo : List Char → List Char → List String
  | [], acc => [String.mk acc.reverse]
  | c :: rest, acc =>
    if c = ',' then String.mk acc.reverse :: splitOnCommaGo rest []
    else splitOnCommaGo rest (c :: acc)

/-- Rust's `families.split(',')`. -/
def splitOnComma (s : String) : List String :=
  splitOnCommaGo s.toList []

namespace FrameMatcherInner

/-- `enhancers/matchers.rs` `FrameMatcherInner::new_family`: splits the
pattern on commas; `native`/`javascript` set their flag, `all` sets both and
stops the scan, anything else is skipped. -/
def new_familyGo : List String → Bool → Bool → Bool × Bool
  | [], native, javascript => (native, javascript)
  | f :: rest, native, javascript =>
    if f = "native" then new_familyGo rest true javascript
    else if f = "javascript" then new_familyGo rest native true
    else if f = "all" then (true, true)
    else new_familyGo rest native javascript

/-- `enhancers/matchers.rs` `FrameMatcherInner::new_family`. -/
def new_family (families : String) : FrameMatcherInner :=
  let (native, javascript) := new_familyGo (splitOnComma families) false false
  .family native javascript

/-- `enhancers/matchers.rs` `FrameMatcherInner::new_in_app`. -/
def new_in_app (expected : String) : Except String FrameMatcherInner :=
  if expected = "1" ∨ expected = "true" ∨ expected = "yes" then
    .ok (.inApp true)
  else if expected = "0" ∨ expected = "false" ∨ expected = "no" then
    .ok (.inApp false)
  else
    .error ("Invalid value for `app`: `" ++ expected ++ "`")

/-- `enhancers/matchers.rs` `FrameMatcherInner::matches_frame`. -/
def matches_frame (rsem : RegexSem) (inner : FrameMatcherInner) (frame : Frame) : Bool :=
  match inner with
  | .field fld path_like pattern =>
    match frame.get_field fld with
    | Option.none => false
    | Option.some value =>
      if rsem pattern path_like value then true
      else if path_like && !value.startsWith "/" then
        rsem pattern path_like ("/" ++ value)
      else false
  | .family native javascript =>
    match frame.get_field .family with
    | Option.none => false
    | Option.some value =>
      if value = "native" then native
      else if value = "javascript" then javascript
      else false
  | .inApp expected => frame.in_app.getD false == expected

end FrameMatcherInner

/-- `enhancers/families.rs` `Families`: a 3-bit family bitmask. -/
structure Families where
  bits : Nat
deriving DecidableEq, Repr

namespace Families

def BITFIELD_OTHER : Nat := 0b001
def BITFIELD_NATIVE : Nat := 0b010
def BITFIELD_JAVASCRIPT : Nat := 0b100
def BITFIELD_ALL : Nat := 255

/-- `enhancers/families.rs` `Families::new`. -/
def new (families : String) : Families :=
  let bitfield := (splitOnComma families).foldl
    (fun bitfield family =>
      bitfield ||| (
        if family = "other" then BITFIELD_OTHER
        else if family = "native" then BITFIELD_NATIVE
        else if family = "javascript" then BITFIELD_JAVASCRIPT
        else if family = "all" then BITFIELD_ALL
        else 0)) 0
  ⟨bitfield⟩

/-- `enhancers/families.rs` `Families::matches` (named `matchesFam` here
because `matches` is a Lean keyword). -/
def matchesFam (self other : Families) : Bool :=
  (self.bits &&& other.bits) > 0

end Families

/-- `enhancers/matchers.rs` `FrameMatcher::matches_frame`: shift the index by
the frame offset (`Caller` uses `checked_sub`, i.e. underflow means no
match), fetch the frame (out of bounds means no match), then XOR the inner
result with the negation flag. -/
def FrameMatcher.matches_frame (rsem : RegexSem) (m : FrameMatcher)
    (frames : List Frame) (idx : Nat) : Bool :=
  let shifted : Option Nat :=
    match m.frame_offset with
    | .caller => if idx = 0 then Option.none else Option.some (idx - 1)
    | .callee => Option.some (idx + 1)
    | .none => Option.some idx
  match shifted with
  | Option.none => false
  | Option.some idx =>
    match frames.get? idx with
    | Option.none => false
    | Option.some frame => m.negated.xor (m.inner.matches_frame rsem frame)

/-- `enhancers/matchers.rs` `ExceptionMatcher::matches_exception`: a missing
attribute matches against the literal `<unknown>`. -/
def ExceptionMatcher.matches_exception (rsem : RegexSem) (m : ExceptionMatcher)
    (exception_data : ExceptionData) : Bool :=
  let value :=
    match m.ty with
    | .type_ => exception_data.ty
    | .value => exception_data.value
    | .mechanism => exception_data.mechanism
  m.negated.xor (rsem m.raw_pattern false (value.getD "<unknown>"))

/-- `enhancers/rules.rs` `Rule::matches_exception`. -/
def Rule.matches_exception (rsem : RegexSem) (rule : Rule)
    (exception_data : ExceptionData) : Bool :=
  rule.exception_matchers.all (fun m => m.matches_exception rsem exception_data)

/-- `enhancers/rules.rs` `Rule::matches_frame`. -/
def Rule.matches_frame (rsem : RegexSem) (rule : Rule)
    (frames : List Frame) (idx : Nat) : Bool :=
  rule.frame_matchers.all (fun m => m.matches_frame rsem frames idx)

/-- Helper rendering a Rust loop `for (j, item) in items.iter_mut().enumerate()
{ *item = f(j, *item) }` functionally: map with the index, starting at `k`. -/
def mapIdxFrom (f : Nat → α → α) : Nat → List α → List α
  | _, [] => []
  | k, a :: l => f k a :: mapIdxFrom f (k + 1) l

/-- In-place mutation of every list element, with its index. -/
def mapIdx' (f : Nat → α → α) (l : List α) : List α :=
  mapIdxFrom f 0 l

/-- `enhancers/actions.rs` `FlagAction::slice_to_range(_mut)` as an index
predicate: `j` lies in the sub-slice selected by `range` at `idx`
(`Up` = `items[idx+1..]`, `Down` = `items[..idx]`, `None` = `items[idx..idx+1]`;
out-of-range slices are empty, which `mapIdx'` yields for free since it only
ever visits indices below the list length). -/
def inSliceRange (range : Option Range) (idx j : Nat) : Bool :=
  match range with
  | Option.some .up => idx + 1 ≤ j
  | Option.some .down => j < idx
  | Option.none => j = idx

/-- `enhancers/actions.rs` `FlagAction::apply_modifications_to_frame`: only
the `app` flag writes to frames; it sets `in_app = Some(flag)` on every frame
of the selected sub-slice. -/
def FlagAction.apply_modifications_to_frame (action : FlagAction)
    (frames : List Frame) (idx : Nat) : List Frame :=
  if action.ty = .app then
    mapIdx' (fun j frame =>
      if inSliceRange action.range idx j then
        { frame with in_app := Option.some action.flag }
      else frame) frames
  else frames

/-- `enhancers/actions.rs` `VarAction::apply_modifications_to_frame`: only
`category` writes to frames; it sets `category` on `frames[idx]` if that
index exists (`get_mut`). -/
def VarAction.apply_modifications_to_frame (action : VarAction)
    (frames : List Frame) (idx : Nat) : List Frame :=
  match action with
  | .category value =>
    mapIdx' (fun j frame =>
      if j = idx then { frame with category := Option.some value } else frame) frames
  | _ => frames

/-- `enhancers/actions.rs` `Action::apply_modifications_to_frame`. -/
def Action.apply_modifications_to_frame (action : Action)
    (frames : List Frame) (idx : Nat) : List Frame :=
  match action with
  | .flag action => action.apply_modifications_to_frame frames idx
  | .var action => action.apply_modifications_to_frame frames idx

/-- `enhancers/rules.rs` `Rule::apply_modifications_to_frame`: all actions in
declaration order. -/
def Rule.apply_modifications_to_frame (rule : Rule)
    (frames : List Frame) (idx : Nat) : List Frame :=
  rule.actions.foldl (fun frames action =>
    action.apply_modifications_to_frame frames idx) frames

/-- `enhancers/actions.rs` `Action::is_modifier`: an `app` flag action or a
`category` var action. -/
def Action.is_modifier : Action → Bool
  | .flag action => action.ty = .app
  | .var (.category _) => true
  | .var _ => false

/-- `enhancers/actions.rs` `Action::is_updater`: everything except the
`category` var action. -/
def Action.is_updater : Action → Bool
  | .var (.category _) => false
  | _ => true

/-- `enhancers/rules.rs` `Rule::has_modifier_action`. -/
def Rule.has_modifier_action (rule : Rule) : Bool :=
  rule.actions.any Action.is_modifier

/-- `enhancers/rules.rs` `Rule::has_updater_action`. -/
def Rule.has_updater_action (rule : Rule) : Bool :=
  rule.actions.any Action.is_updater

/-- `enhancers/mod.rs` `Enhancements`. -/
structure Enhancements where
  all_rules : List Rule
  modifier_rules : List Rule
  updater_rules : List Rule
deriving DecidableEq, Repr

/-- `enhancers/mod.rs` `Enhancements::new`: partition the rules into the
modifier and updater lists. -/
def Enhancements.new (all_rules : List Rule) : Enhancements where
  all_rules := all_rules
  modifier_rules := all_rules.filter Rule.has_modifier_action
  updater_rules := all_rules.filter Rule.has_updater_action

/-- `enhancers/mod.rs` `apply_modifications_to_frames`, inner loop for one
eligible rule: first collect every matching index against the frames as they
are now, then apply the rule's actions at each collected index. -/
def matchedIndices (rsem : RegexSem) (rule : Rule) (frames : List Frame) : List Nat :=
  (List.range frames.length).filter (fun idx => rule.matches_frame rsem frames idx)

/-- One iteration of the rule loop of
`enhancers/mod.rs` `Enhancements::apply_modifications_to_frames`
(collect-then-mutate for a single eligible rule). -/
def applyRuleModifications (rsem : RegexSem) (rule : Rule) (frames : List Frame) :
    List Frame :=
  (matchedIndices rsem rule frames).foldl
    (fun frames idx => rule.apply_modifications_to_frame frames idx) frames

/-- `enhancers/mod.rs` `Enhancements::apply_modifications_to_frames`: for each
modifier rule in order, skip it unless its exception matchers all match, then
collect-and-apply. -/
def Enhancements.apply_modifications_to_frames (rsem : RegexSem)
    (self : Enhancements) (frames : List Frame) (exception_data : ExceptionData) :
    List Frame :=
  self.modifier_rules.foldl
    (fun frames rule =>
      if rule.matches_exception rsem exception_data then
        applyRuleModifications rsem rule frames
      else frames)
    frames

/-! ## Display implementations

The canonical printable forms, used in component hints.  They embed the
`fmt::Display` impls of `actions.rs`, `matchers.rs` and `rules.rs`. -/

/-- `actions.rs` `Display for Range`. -/
def Range.display : Range → String
  | .up => "^"
  | .down => "v"

/-- `actions.rs` `Display for FlagActionType`. -/
def FlagActionType.display : FlagActionType → String
  | .app => "app"
  | .group => "group"
  | .prefixTy => "prefix"
  | .sentinel => "sentinel"

/-- `actions.rs` `Display for FlagAction`. -/
def FlagAction.display (action : FlagAction) : String :=
  (match action.range with
   | Option.some range => range.display
   | Option.none => "")
  ++ (if action.flag then "+" else "-") ++ action.ty.display

/-- `actions.rs` `Display for VarAction`. -/
def VarAction.display : VarAction → String
  | .minFrames value => "min-frames=" ++ toString value
  | .maxFrames value => "max-frames=" ++ toString value
  | .category value => "category=" ++ value
  | .invertStacktrace value => "invert-stacktrace=" ++ toString value

/-- `actions.rs` `Display for Action`. -/
def Action.display : Action → String
  | .flag action => action.display
  | .var action => action.display

/-- Modelled from the spec: the `fmt::Display` impl for `FrameField` is
missing from `src` (the snapshot's `frame.rs` predates it; `matchers.rs`
invokes it as `write!(f, "{field}")`).  Per the spec's matcher-name
vocabulary and canonical printable form, it prints the field's rule-text
name. -/
def FrameField.display : FrameField → String
  | .category => "category"
  | .family => "family"
  | .function => "function"
  | .module => "module"
  | .package => "package"
  | .path => "path"

/-- `matchers.rs` `Display for FrameMatcherInner`. -/
def FrameMatcherInner.displayName : FrameMatcherInner → String
  | .field fld _ _ => fld.display
  | .family _ _ => "family"
  | .inApp _ => "app"

/-- `matchers.rs` `Display for FrameMatcher`. -/
def FrameMatcher.display (m : FrameMatcher) : String :=
  (match m.frame_offset with
   | .caller => "["
   | .callee => "| ["
   | .none => "")
  ++ (if m.negated then "!" else "")
  ++ m.inner.displayName ++ ":" ++ m.raw_pattern
  ++ (match m.frame_offset with
   | .caller => "] |"
   | .callee => "]"
   | .none => "")

/-- `matchers.rs` `Display for ExceptionMatcherType`. -/
def ExceptionMatcherType.display : ExceptionMatcherType → String
  | .type_ => "type"
  | .value => "value"
  | .mechanism => "mechanism"

/-- `matchers.rs` `Display for ExceptionMatcher`. -/
def ExceptionMatcher.display (m : ExceptionMatcher) : String :=
  (if m.negated then "!" else "") ++ m.ty.display ++ ":" ++ m.raw_pattern

/-- `rules.rs` `Display for Rule`: exception matchers, then frame matchers,
then actions, separated by single spaces. -/
def Rule.display (rule : Rule) : String :=
  let parts := rule.exception_matchers.map ExceptionMatcher.display
    ++ rule.frame_matchers.map FrameMatcher.display
    ++ rule.actions.map Action.display
  String.intercalate " " parts

/-! ## Components, stacktrace state, and the updater pass -/

/-- `enhancers/mod.rs` `Component`. -/
structure Component where
  contributes : Bool := false
  is_prefix_frame : Bool := false
  is_sentinel_frame : Bool := false
  hint : Option String := Option.none
deriving DecidableEq, Repr

/-- `enhancers/mod.rs` `StacktraceVariable<T>`. -/
structure StacktraceVariable (T : Type) where
  value : T
  setter : Option Rule := Option.none
deriving DecidableEq, Repr

/-- `enhancers/mod.rs` `StacktraceState` with its `Default`. -/
structure StacktraceState where
  max_frames : StacktraceVariable Nat := ⟨0, Option.none⟩
  min_frames : StacktraceVariable Nat := ⟨0, Option.none⟩
  invert_stacktrace : StacktraceVariable Bool := ⟨false, Option.none⟩
deriving DecidableEq, Repr

/-- `enhancers/actions.rs` `FlagAction::in_app_changed`. -/
def FlagAction.in_app_changed (action : FlagAction) (component : Component)
    (frame : Frame) : Bool :=
  match frame.orig_in_app with
  | Option.some orig_in_app => Option.some orig_in_app ≠ frame.in_app
  | Option.none => action.flag == component.contributes

/-- The per-component update of one flag action
(`enhancers/actions.rs` `FlagAction::update_frame_components_contributions`,
loop body over the zipped component/frame sub-slices). -/
def FlagAction.updateComponent (action : FlagAction) (rule : Rule)
    (component : Component) (frame : Frame) : Component :=
  match action.ty with
  | .group =>
    if component.contributes ≠ action.flag then
      { component with
        contributes := action.flag
        hint := Option.some
          ((if action.flag then "un-ignored" else "ignored")
            ++ " by stack trace rule (" ++ rule.display ++ ")") }
    else component
  | .app =>
    if action.in_app_changed component frame then
      { component with
        hint := Option.some ("marked "
          ++ (if action.flag then "in-app" else "out of app")
          ++ " by stack trace rule (" ++ rule.display ++ ")") }
    else component
  | .prefixTy =>
    { component with
      is_prefix_frame := action.flag
      hint := Option.some ("marked as prefix frame by stack trace rule ("
        ++ rule.display ++ ")") }
  | .sentinel =>
    { component with
      is_sentinel_frame := action.flag
      hint := Option.some ("marked as sentinel frame by stack trace rule ("
        ++ rule.display ++ ")") }

/-- `enhancers/actions.rs` `FlagAction::update_frame_components_contributions`:
iterate the selected sub-slices of components and frames in lockstep
(`components.zip(frames)`; both slices have the same index window, so the
pairing is positional). -/
def FlagAction.update_frame_components_contributions (action : FlagAction)
    (components : List Component) (frames : List Frame) (idx : Nat)
    (rule : Rule) : List Component :=
  mapIdx' (fun j component =>
    if inSliceRange action.range idx j then
      match frames.get? j with
      | Option.some frame => action.updateComponent rule component frame
      | Option.none => component
    else component) components

/-- `enhancers/actions.rs` `Action::update_frame_components_contributions`:
only flag actions update components. -/
def Action.update_frame_components_contributions (action : Action)
    (components : List Component) (frames : List Frame) (idx : Nat)
    (rule : Rule) : List Component :=
  match action with
  | .flag action => action.update_frame_components_contributions components frames idx rule
  | .var _ => components

/-- `enhancers/actions.rs` `Action::modify_stacktrace_state`. -/
def Action.modify_stacktrace_state (action : Action) (state : StacktraceState)
    (rule : Rule) : StacktraceState :=
  match action with
  | .var (.minFrames v) => { state with min_frames := ⟨v, Option.some rule⟩ }
  | .var (.maxFrames v) => { state with max_frames := ⟨v, Option.some rule⟩ }
  | .var (.invertStacktrace v) =>
    { state with invert_stacktrace := ⟨v, Option.some rule⟩ }
  | .var (.category _) => state
  | .flag _ => state

/-- `enhancers/rules.rs` `Rule::update_frame_components_contributions`. -/
def Rule.update_frame_components_contributions (rule : Rule)
    (components : List Component) (frames : List Frame) (idx : Nat) :
    List Component :=
  rule.actions.foldl (fun components action =>
    action.update_frame_components_contributions components frames idx rule)
    components

/-- `enhancers/rules.rs` `Rule::modify_stacktrace_state`. -/
def Rule.modify_stacktrace_state (rule : Rule) (state : StacktraceState) :
    StacktraceState :=
  rule.actions.foldl (fun state action =>
    action.modify_stacktrace_state state rule) state

/-- `enhancers/mod.rs` `update_frame_components_contributions`, step 1: seed
the in-app hints over `components.iter_mut().zip(frames)`.  The code unwraps
`frame.in_app` whenever `in_app_last_changed` is set ("in_app is definitely
set, otherwise `in_app_last_changed` would be `None`"); the unwrap is
modelled as `Option` (`none` = panic). -/
def seedInAppHints : List Component → List Frame → Option (List Component)
  | components, [] => Option.some components
  | [], _ => Option.some []
  | component :: components, frame :: frames =>
    match frame.in_app_last_changed with
    | Option.none =>
      (seedInAppHints components frames).map (component :: ·)
    | Option.some rule =>
      match frame.in_app with
      | Option.none => Option.none
      | Option.some in_app =>
        let state := if in_app then "in-app" else "out of app"
        let component := { component with
          hint := Option.some ("marked " ++ state
            ++ " by stack trace rule (" ++ rule.display ++ ")") }
        (seedInAppHints components frames).map (component :: ·)

/-- `enhancers/mod.rs` `update_frame_components_contributions`, step 2: for
each updater rule in order, for each frame index, if the rule matches there,
update the components and the stacktrace state. -/
def runUpdaterRules (rsem : RegexSem) (rules : List Rule)
    (components : List Component) (frames : List Frame)
    (state : StacktraceState) : List Component × StacktraceState :=
  rules.foldl
    (fun (acc : List Component × StacktraceState) rule =>
      (List.range frames.length).foldl
        (fun (acc : List Component × StacktraceState) idx =>
          if rule.matches_frame rsem frames idx then
            (rule.update_frame_components_contributions acc.1 frames idx,
             rule.modify_stacktrace_state acc.2)
          else acc)
        acc)
    (components, state)

/-- The hint written by the `max_frames` tail trim in `enhancers/mod.rs`:
`"ignored because only {max_frames} {frames are|frame is} considered"`,
with `" by stack trace rule ({setter})"` appended when a setter is
recorded. -/
def ignoredHint (max_frames : Nat) (setter : Option Rule) : String :=
  let hint := "ignored because only " ++ toString max_frames ++ " "
    ++ (if max_frames ≠ 1 then "frames are" else "frame is") ++ " considered"
  match setter with
  | Option.some rule => hint ++ " by stack trace rule (" ++ rule.display ++ ")"
  | Option.none => hint

/-- The `max_frames` tail trim of `enhancers/mod.rs`, on the *reversed*
component list (the code iterates `components.iter_mut().rev()` with a
running count `ignored` of contributing components seen so far). -/
def trimRev (max_frames : Nat) (setter : Option Rule) :
    Nat → List Component → List Component
  | _, [] => []
  | ignored, component :: rest =>
    if !component.contributes then
      component :: trimRev max_frames setter ignored rest
    else if ignored + 1 ≤ max_frames then
      component :: trimRev max_frames setter (ignored + 1) rest
    else
      { component with
        contributes := false
        hint := Option.some (ignoredHint max_frames setter) }
        :: trimRev max_frames setter (ignored + 1) rest

/-- The `max_frames` tail trim of `enhancers/mod.rs`, in component order. -/
def trimMaxFrames (max_frames : Nat) (setter : Option Rule)
    (components : List Component) : List Component :=
  (trimRev max_frames setter 0 components.reverse).reverse

/-- `enhancers/mod.rs` `Enhancements::update_frame_components_contributions`:
seed in-app hints, run the updater rules, then trim the tail down to
`max_frames` when it is positive.  `none` models the `unwrap` panic of
step 1. -/
def Enhancements.update_frame_components_contributions (rsem : RegexSem)
    (self : Enhancements) (components : List Component) (frames : List Frame) :
    Option (List Component × StacktraceState) :=
  (seedInAppHints components frames).map (fun components =>
    let (components, state) :=
      runUpdaterRules rsem self.updater_rules components frames {}
    let max_frames := state.max_frames.value
    let components :=
      if 0 < max_frames then
        trimMaxFrames max_frames state.max_frames.setter components
      else components
    (components, state))

/-! ## Matcher construction and the compact binary encoding -/

/-- `enhancers/rules.rs` `Rule::new`: partition the matchers into frame and
exception matchers, preserving order within each kind. -/
def Rule.new (matchers : List Matcher) (actions : List Action) : Rule where
  frame_matchers := matchers.filterMap (fun m =>
    match m with
    | .frame m => Option.some m
    | .exception _ => Option.none)
  exception_matchers := matchers.filterMap (fun m =>
    match m with
    | .frame _ => Option.none
    | .exception m => Option.some m)
  actions := actions

/-- `enhancers/matchers.rs` `Matcher::new`: dispatch on the matcher name.
Regex compilation (via the regex cache) is modelled as total — the compiled
regex is represented by its construction key; see `RegexSem`. -/
def Matcher.new (negated : Bool) (matcher_type : String) (argument : String)
    (frame_offset : FrameOffset) : Except String Matcher :=
  let frame (inner : FrameMatcherInner) : Matcher :=
    .frame ⟨negated, frame_offset, inner, argument⟩
  if matcher_type = "stack.module" ∨ matcher_type = "module" then
    .ok (frame (.field .module false argument))
  else if matcher_type = "stack.function" ∨ matcher_type = "function" then
    .ok (frame (.field .function false argument))
  else if matcher_type = "category" then
    .ok (frame (.field .category false argument))
  else if matcher_type = "stack.abs_path" ∨ matcher_type = "path" then
    .ok (frame (.field .path true argument))
  else if matcher_type = "stack.package" ∨ matcher_type = "package" then
    .ok (frame (.field .package true argument))
  else if matcher_type = "family" then
    .ok (frame (FrameMatcherInner.new_family argument))
  else if matcher_type = "app" then
    (FrameMatcherInner.new_in_app argument).map frame
  else if matcher_type = "error.type" ∨ matcher_type = "type" then
    .ok (.exception ⟨negated, .type_, argument⟩)
  else if matcher_type = "error.value" ∨ matcher_type = "value" then
    .ok (.exception ⟨negated, .value, argument⟩)
  else if matcher_type = "error.mechanism" ∨ matcher_type = "mechanism" then
    .ok (.exception ⟨negated, .mechanism, argument⟩)
  else
    .error ("Unknown matcher `" ++ matcher_type ++ "`")

/-- `enhancers/config_structure.rs` `EncodedMatcher`: a single string,
represented as its character list for the slicing the decoder performs. -/
abbrev EncodedMatcher := List Char

/-- The family-letter expansion inside
`enhancers/config_structure.rs` `EncodedMatcher::into_matcher`: each `N`
appends `,native`, `J` appends `,javascript`, `a` appends `,all`, anything
else is ignored; the leading comma is dropped at the end. -/
def decodeFamilyChars (arg : List Char) : String :=
  let families := arg.foldl (fun acc c =>
    if c = 'N' then acc ++ ",native"
    else if c = 'J' then acc ++ ",javascript"
    else if c = 'a' then acc ++ ",all"
    else acc) ""
  (families.drop 1)

/-- `enhancers/config_structure.rs` `EncodedMatcher::into_matcher`: strip the
optional offset brackets and negation, read the one-character tag, then
construct via `Matcher::new`.  (On the empty body the Rust `split_at(1)`
would panic; that unreachable edge is mapped to the parse error.) -/
def EncodedMatcher.into_matcher (encoded : EncodedMatcher) : Except String Matcher :=
  let (def_, frame_offset) :=
    if encoded.take 2 = ['|', '['] ∧ encoded.getLast? = Option.some ']' then
      ((encoded.drop 2).dropLast, FrameOffset.callee)
    else if encoded.head? = Option.some '[' ∧
        (encoded.drop (encoded.length - 2)) = [']', '|'] then
      ((encoded.drop 1).dropLast.dropLast, FrameOffset.caller)
    else
      (encoded, FrameOffset.none)
  let (def_, negated) :=
    match def_ with
    | '!' :: rest => (rest, true)
    | _ => (def_, false)
  match def_ with
  | [] => .error ("unable to parse encoded Matcher: `" ++ String.mk encoded ++ "`")
  | tag :: arg =>
    let decoded : Option (String × String) :=
      if tag = 'p' then Option.some ("path", String.mk arg)
      else if tag = 'f' then Option.some ("function", String.mk arg)
      else if tag = 'm' then Option.some ("module", String.mk arg)
      else if tag = 'F' then Option.some ("family", decodeFamilyChars arg)
      else if tag = 'P' then Option.some ("package", String.mk arg)
      else if tag = 'a' then Option.some ("app", String.mk arg)
      else if tag = 't' then Option.some ("type", String.mk arg)
      else if tag = 'v' then Option.some ("value", String.mk arg)
      else if tag = 'M' then Option.some ("mechanism", String.mk arg)
      else Option.none
    match decoded with
    | Option.none =>
      .error ("unable to parse encoded Matcher: `" ++ String.mk encoded ++ "`")
    | Option.some (key, arg) => Matcher.new negated key arg frame_offset

/-- `enhancers/config_structure.rs` `EncodedMatcher::from_exception_matcher`. -/
def EncodedMatcher.from_exception_matcher (m : ExceptionMatcher) : EncodedMatcher :=
  (if m.negated then ['!'] else [])
  ++ [match m.ty with
      | .type_ => 't'
      | .value => 'v'
      | .mechanism => 'M']
  ++ m.raw_pattern.toList

/-- The tag character `EncodedMatcher::from_frame_matcher` chooses for a
frame matcher.  (`FrameField.family` never occurs inside a `Field` matcher
built by `Matcher::new` and has no arm in the source match, which covers the
other source variants' fields; it is mapped to `'F'` to keep the function
total.) -/
def frameMatcherTag : FrameMatcherInner → Char
  | .field .category _ _ => 'c'
  | .field .function _ _ => 'f'
  | .field .module _ _ => 'm'
  | .field .package _ _ => 'P'
  | .field .path _ _ => 'p'
  | .field .family _ _ => 'F'
  | .family _ _ => 'F'
  | .inApp _ => 'a'

/-- `enhancers/config_structure.rs` `EncodedMatcher::from_frame_matcher`:
offset brackets, negation, tag character, then the raw pattern verbatim. -/
def EncodedMatcher.from_frame_matcher (m : FrameMatcher) : EncodedMatcher :=
  (match m.frame_offset with
   | .caller => ['[']
   | .callee => ['|', '[']
   | .none => [])
  ++ (if m.negated then ['!'] else [])
  ++ [frameMatcherTag m.inner]
  ++ m.raw_pattern.toList
  ++ (match m.frame_offset with
   | .caller => [']', '|']
   | .callee => [']']
   | .none => [])

/-- `enhancers/config_structure.rs` `VarActionValue`. -/
inductive VarActionValue where
  | int (value : Nat)
  | bool (value : Bool)
  | str (value : String)
deriving DecidableEq, Repr

/-- `enhancers/config_structure.rs` `EncodedAction`. -/
inductive EncodedAction where
  | flagAction (encoded : Nat)
  | varAction (name : String) (value : VarActionValue)
deriving DecidableEq, Repr

/-- `enhancers/config_structure.rs` `FLAG_ACTION_TYPES`: the flag action
types in bitfield-encoding order. -/
def FLAG_ACTION_TYPES : List FlagActionType :=
  [.group, .app, .prefixTy, .sentinel]

/-- `enhancers/config_structure.rs` `FLAG_ACTION_VALUES`: the (value, range)
pairs in bitfield-encoding order. -/
def FLAG_ACTION_VALUES : List (Bool × Option Range) :=
  [(true, Option.none), (true, Option.some .up), (true, Option.some .down),
   (false, Option.none), (false, Option.some .up), (false, Option.some .down)]

/-- `enhancers/config_structure.rs` `FLAG_ACTION_VALUE_OFFSET`. -/
def FLAG_ACTION_VALUE_OFFSET : Nat := 8

/-- `enhancers/config_structure.rs` `FLAG_ACTION_TYPE_MASK`. -/
def FLAG_ACTION_TYPE_MASK : Nat := 0xF

/-- `enhancers/config_structure.rs` `EncodedAction::into_action`: an encoded
flag action's low 4 bits index `FLAG_ACTION_TYPES` and its bits from offset
8 index `FLAG_ACTION_VALUES`; out-of-range indices and mistyped var-action
tuples are errors. -/
def EncodedAction.into_action : EncodedAction → Except String Action
  | .flagAction encoded =>
    match FLAG_ACTION_TYPES.get? (encoded &&& FLAG_ACTION_TYPE_MASK) with
    | Option.none =>
      .error ("Failed to convert encoded FlagAction: `" ++ toString encoded ++ "`")
    | Option.some ty =>
      match FLAG_ACTION_VALUES.get? (encoded >>> FLAG_ACTION_VALUE_OFFSET) with
      | Option.none =>
        .error ("Failed to convert encoded FlagAction: `" ++ toString encoded ++ "`")
      | Option.some (flag, range) => .ok (.flag ⟨flag, ty, range⟩)
  | .varAction "min-frames" (.int value) => .ok (.var (.minFrames value))
  | .varAction "max-frames" (.int value) => .ok (.var (.maxFrames value))
  | .varAction "invert-stacktrace" (.bool value) => .ok (.var (.invertStacktrace value))
  | .varAction "category" (.str value) => .ok (.var (.category value))
  | .varAction _ _ => .error "Failed to convert encoded Action"

/-- `enhancers/config_structure.rs` `EncodedAction::from_action`. -/
def EncodedAction.from_action : Action → EncodedAction
  | .flag action =>
    let ty : Nat :=
      match action.ty with
      | .group => 0b00
      | .app => 0b01
      | .prefixTy => 0b10
      | .sentinel => 0b11
    let flag_range : Nat :=
      match action.flag, action.range with
      | true, Option.none => 0b000
      | true, Option.some .up => 0b001
      | true, Option.some .down => 0b010
      | false, Option.none => 0b011
      | false, Option.some .up => 0b100
      | false, Option.some .down => 0b101
    .flagAction (flag_range <<< FLAG_ACTION_VALUE_OFFSET ||| ty)
  | .var (.minFrames value) => .varAction "min-frames" (.int value)
  | .var (.maxFrames value) => .varAction "max-frames" (.int value)
  | .var (.category value) => .varAction "category" (.str value)
  | .var (.invertStacktrace value) => .varAction "invert-stacktrace" (.bool value)

/-- `enhancers/config_structure.rs` `EncodedRule`. -/
structure EncodedRule where
  matchers : List EncodedMatcher
  actions : List EncodedAction
deriving DecidableEq, Repr

/-- Rust's `.collect::<Result<_, _>>()` over an iterator of fallible
conversions: stop at the first error, else return all results in order. -/
def collectExcept (f : α → Except ε β) : List α → Except ε (List β)
  | [] => .ok []
  | a :: rest =>
    match f a with
    | .error e => .error e
    | .ok b => (collectExcept f rest).map (b :: ·)

/-- Decoding one rule, as done inline in
`enhancers/mod.rs` `Enhancements::from_config_structure` (and equivalently by
`EncodedRule::into_rule`). -/
def EncodedRule.into_rule (encoded : EncodedRule) : Except String Rule :=
  match collectExcept EncodedMatcher.into_matcher encoded.matchers with
  | .error e => .error e
  | .ok matchers =>
    match collectExcept EncodedAction.into_action encoded.actions with
    | .error e => .error e
    | .ok actions => .ok (Rule.new matchers actions)

/-- `enhancers/config_structure.rs` `EncodedRule::from_rule`: exception
matchers first, then frame matchers, then the actions. -/
def EncodedRule.from_rule (rule : Rule) : EncodedRule where
  matchers := rule.exception_matchers.map EncodedMatcher.from_exception_matcher
    ++ rule.frame_matchers.map EncodedMatcher.from_frame_matcher
  actions := rule.actions.map EncodedAction.from_action

/-- `enhancers/config_structure.rs` `EncodedEnhancements`: the msgpack shape
`(version, bases, rules)`.  MessagePack (de)serialization itself is the
external `rmp_serde` crate; the embedding starts from the decoded shape. -/
structure EncodedEnhancements where
  version : Nat
  bases : List String
  rules : List EncodedRule
deriving DecidableEq, Repr

/-- `enhancers/mod.rs` `Enhancements::from_config_structure`: only version 2
is accepted; every rule must decode, else the whole decode fails and no
`Enhancements` is produced. -/
def Enhancements.from_config_structure (input : EncodedEnhancements) :
    Except String Enhancements :=
  if input.version ≠ 2 then
    .error "Rust Enhancements only supports config_structure version `2`"
  else
    (collectExcept EncodedRule.into_rule input.rules).map Enhancements.new

/-! ## The Python-binding frame conversion (`src/bindings/src/enhancers.rs`) -/

/-- The frame dictionary received from Python
(`bindings/src/enhancers.rs` `struct Frame`). -/
structure PyFrame where
  category : Option String := Option.none
  family : Option String := Option.none
  function : Option String := Option.none
  module : Option String := Option.none
  package : Option String := Option.none
  path : Option String := Option.none
  in_app : Option Bool := Option.none
deriving DecidableEq, Repr

/-- `bindings/src/enhancers.rs` `convert_frame_from_py`: build the engine
frame; `in_app_last_changed` is always initialized to `None`.  (The bindings
pass the family through `Families::new(... .unwrap_or("other"))`; since this
embedding's `Frame` stores the family as the string the matcher engine in
`matchers.rs` reads, the conversion records that string, defaulted to
`"other"`.) -/
def convert_frame_from_py (frame : PyFrame) : Frame where
  category := frame.category
  family := Option.some (frame.family.getD "other")
  function := frame.function
  module := frame.module
  package := frame.package
  path := frame.path
  in_app := frame.in_app
  in_app_last_changed := Option.none
  orig_in_app := Option.none

/-! ## Concrete values used to evaluate the code at specific inputs -/

/-- A regex semantics for evaluations whose matchers never consult the regex
engine (family and in-app matchers do not use patterns). -/
def falseSem : RegexSem := fun _ _ _ => false

/-- A frame whose family is neither `native` nor `javascript`. -/
def otherFrame : Frame := { family := Option.some "other" }

/-- The rule `+app` (a single positive `app` flag action on the current
frame, no matchers). -/
def plusAppRule : Rule := ⟨[], [], [.flag ⟨true, .app, Option.none⟩]⟩

/-! ## Claim theorems -/

/-- **C1.** The claim says a family matcher with pattern `all` matches every
frame, in particular frames of family `other`.  Evaluating the code at that
failing input: `FrameMatcherInner::new_family("all")` (matchers.rs) yields
the matcher with `native = true, javascript = true`, and its `matches_frame`
returns `false` on a frame of family `"other"` (its match arm `_ => false`
ignores the `all` intent) — both at the inner level and for the full
`family:all` frame matcher — whereas the repository's own bitmask
implementation `Families` (families.rs, used by the bindings to build
frames) makes `all` match `other` as the claim states. -/
theorem c1_family_all_does_not_match_other :
    FrameMatcherInner.new_family "all" = .family true true
    ∧ (FrameMatcherInner.new_family "all").matches_frame falseSem otherFrame = false
    ∧ FrameMatcher.matches_frame falseSem
        ⟨false, .none, FrameMatcherInner.new_family "all", "all"⟩ [otherFrame] 0 = false
    ∧ (Families.new "all").matchesFam (Families.new "other") = true := by
  refine ⟨by decide, by decide, by decide, by decide⟩

/-- **C2.** The claim says every `±app` application also records the applying
rule in `in_app_last_changed`.  Evaluating the code at a failing input: the
modifier pass for the rule `+app` on a single fresh frame sets `in_app` to
`Some(true)` but leaves `in_app_last_changed` as `None`
(`FlagAction::apply_modifications_to_frame` in actions.rs writes only
`in_app`), so after the pass a frame's `in_app` has been written by a rule
while `in_app_last_changed` is unset — the "iff" fails. -/
theorem c2_plus_app_does_not_record_rule :
    (Enhancements.new [plusAppRule]).apply_modifications_to_frames falseSem [{}] {}
      = [{ in_app := Option.some true, in_app_last_changed := Option.none }] := by
  decide

/-- **C5.** The claim says a `±app` flag action writes nothing to the
selected components in the updater pass.  Evaluating the code at a failing
input: the `App` arm of
`FlagAction::update_frame_components_contributions` (actions.rs) overwrites
`component.hint` whenever `in_app_changed` holds — here `orig_in_app` is
unset and `flag == contributes` (`true == true`), so the hint of a
contributing component changes from `None` to
`"marked in-app by stack trace rule (+app)"`. -/
theorem c5_updater_app_action_writes_hint :
    FlagAction.update_frame_components_contributions ⟨true, .app, Option.none⟩
        [{ contributes := true }] [{}] 0 plusAppRule
      = [{ contributes := true,
           hint := Option.some "marked in-app by stack trace rule (+app)" }]
    ∧ ([{ contributes := true,
          hint := Option.some "marked in-app by stack trace rule (+app)" }]
        ≠ ([{ contributes := true }] : List Component)) := by
  refine ⟨by decide, by decide⟩

/-- The frame matcher produced by parsing `family:native`
(`Matcher::new(false, "family", "native", None)`). -/
def familyNativeMatcher : FrameMatcher :=
  ⟨false, .none, FrameMatcherInner.new_family "native", "native"⟩

/-- The rule produced by parsing `family:native -app`. -/
def familyNativeRule : Rule :=
  Rule.new [.frame familyNativeMatcher] [.flag ⟨false, .app, Option.none⟩]

/-- **C7.** The claim says text→parse→encode→decode is structurally equal to
text→parse (modulo family-letter normalization).  Evaluating the code at
the failing input `family:native -app`: `Matcher::new` builds the family
matcher with `native = true, javascript = false`;
`EncodedMatcher::from_frame_matcher` emits the raw pattern verbatim
(`"Fnative"`) although `into_matcher` expects family *letters* after the
`F` tag, so on decode the letter scan finds the `'a'` inside `"native"`,
expands it to `all`, and yields the matcher with
`native = true, javascript = true` and raw pattern `"all"` — a rule
structurally different from (and not match-equivalent to) the parsed one. -/
theorem c7_family_native_does_not_round_trip :
    Matcher.new false "family" "native" .none = .ok (.frame familyNativeMatcher)
    ∧ EncodedMatcher.from_frame_matcher familyNativeMatcher = "Fnative".toList
    ∧ (EncodedRule.from_rule familyNativeRule).into_rule
        = .ok (Rule.new [.frame ⟨false, .none, .family true true, "all"⟩]
            [.flag ⟨false, .app, Option.none⟩])
    ∧ (EncodedRule.from_rule familyNativeRule).into_rule ≠ .ok familyNativeRule := by
  refine ⟨by decide, by decide, by decide, by decide⟩

/-- The body of `FrameMatcher::matches_frame` after the index shift, as an
`if` on the index being in range. -/
theorem matchBody_eq_if (rsem : RegexSem) (neg : Bool) (inner : FrameMatcherInner)
    (frames : List Frame) (j : Nat) :
    (match frames.get? j with
     | Option.none => false
     | Option.some frame => neg.xor (inner.matches_frame rsem frame)) =
      if j < frames.length then neg.xor (inner.matches_frame rsem (frames.getD j {}))
      else false := by
  rcases h : frames.get? j with _ | frame
  · have hle : frames.length ≤ j := List.get?_eq_none.mp h
    rw [if_neg (by omega)]
  · have hlt : j < frames.length := by
      by_contra hge
      rw [List.get?_eq_none.mpr (by omega)] at h
      exact Option.noConfusion h
    rw [if_pos hlt]
    rw [List.get?_eq_getElem?] at h
    simp [List.getD, h]

/-- The index shift described by the spec, on integers (so that `Caller` at
index 0 visibly falls out of range instead of underflowing). -/
def specShiftedIndex (offset : FrameOffset) (idx : Nat) : Int :=
  match offset with
  | .caller => (idx : Int) - 1
  | .callee => (idx : Int) + 1
  | .none => (idx : Int)

/-- **C6.** `FrameMatcher::matches_frame` first shifts the index by the
offset (`Caller` → `i-1`, `Callee` → `i+1`, `None` → `i`); if the shifted
index falls outside `[0, N)` the matcher returns `false` regardless of the
negation flag, and otherwise the result is the inner match XORed with the
negation flag (offset applied before negation). -/
theorem c6_offset_shift_before_negation (rsem : RegexSem) (m : FrameMatcher)
    (frames : List Frame) (idx : Nat) :
    m.matches_frame rsem frames idx =
      if 0 ≤ specShiftedIndex m.frame_offset idx ∧
          specShiftedIndex m.frame_offset idx < (frames.length : Int) then
        m.negated.xor (m.inner.matches_frame rsem
          (frames.getD (specShiftedIndex m.frame_offset idx).toNat {}))
      else false := by
  rcases m with ⟨neg, offset, inner, raw⟩
  cases offset with
  | caller =>
    cases idx with
    | zero =>
      have hL : FrameMatcher.matches_frame rsem ⟨neg, .caller, inner, raw⟩ frames 0
          = false := rfl
      have hS : specShiftedIndex (FrameMatcher.mk neg .caller inner raw).frame_offset 0
          = -1 := rfl
      rw [hL, hS, if_neg (by omega)]
    | succ k =>
      have hL : FrameMatcher.matches_frame rsem ⟨neg, .caller, inner, raw⟩ frames (k + 1)
          = (match frames.get? k with
             | Option.none => false
             | Option.some frame => neg.xor (inner.matches_frame rsem frame)) := rfl
      have hS : specShiftedIndex (FrameMatcher.mk neg .caller inner raw).frame_offset (k + 1)
          = (k : Int) := by
        show ((k + 1 : Nat) : Int) - 1 = (k : Int)
        push_cast
        omega
      rw [hL, hS, matchBody_eq_if]
      have h2 : ((k : Int)).toNat = k := by omega
      rw [h2]
      by_cases hlt : k < frames.length
      · rw [if_pos hlt, if_pos (by constructor <;> omega)]
      · rw [if_neg hlt, if_neg (by omega)]
  | callee =>
    have hL : FrameMatcher.matches_frame rsem ⟨neg, .callee, inner, raw⟩ frames idx
        = (match frames.get? (idx + 1) with
           | Option.none => false
           | Option.some frame => neg.xor (inner.matches_frame rsem frame)) := rfl
    have hS : specShiftedIndex (FrameMatcher.mk neg .callee inner raw).frame_offset idx
        = ((idx + 1 : Nat) : Int) := by
      show (idx : Int) + 1 = ((idx + 1 : Nat) : Int)
      push_cast
      omega
    rw [hL, hS, matchBody_eq_if]
    have h2 : (((idx + 1 : Nat) : Int)).toNat = idx + 1 := by omega
    rw [h2]
    by_cases hlt : idx + 1 < frames.length
    · rw [if_pos hlt, if_pos (by constructor <;> omega)]
    · rw [if_neg hlt, if_neg (by omega)]
  | none =>
    have hL : FrameMatcher.matches_frame rsem ⟨neg, .none, inner, raw⟩ frames idx
        = (match frames.get? idx with
           | Option.none => false
           | Option.some frame => neg.xor (inner.matches_frame rsem frame)) := rfl
    have hS : specShiftedIndex (FrameMatcher.mk neg .none inner raw).frame_offset idx
        = ((idx : Nat) : Int) := rfl
    rw [hL, hS, matchBody_eq_if]
    have h2 : (((idx : Nat) : Int)).toNat = idx := by omega
    rw [h2]
    by_cases hlt : idx < frames.length
    · rw [if_pos hlt, if_pos (by constructor <;> omega)]
    · rw [if_neg hlt, if_neg (by omega)]

/-- **C3.** In `apply_modifications_to_frames` each eligible rule is
evaluated collect-then-mutate: the pass for a rule factors through
`matchedIndices`, the set of indices where the rule matches the frames *as
they are when the rule starts* — the rule's own writes cannot influence it —
and that index set is characterized purely by the rule and the frame list:
`idx` is collected iff `idx < N` and the rule matches the input frames at
`idx`. -/
theorem c3_collect_then_mutate (rsem : RegexSem) (e : Enhancements)
    (frames : List Frame) (exception_data : ExceptionData) :
    e.apply_modifications_to_frames rsem frames exception_data =
      e.modifier_rules.foldl
        (fun frames rule =>
          if rule.matches_exception rsem exception_data then
            (matchedIndices rsem rule frames).foldl
              (fun frames idx => rule.apply_modifications_to_frame frames idx) frames
          else frames)
        frames
    ∧ ∀ (rule : Rule) (fs : List Frame) (idx : Nat),
        idx ∈ matchedIndices rsem rule fs ↔
          idx < fs.length ∧ rule.matches_frame rsem fs idx = true := by
  constructor
  · rfl
  · intro rule fs idx
    simp [matchedIndices, List.mem_filter, List.mem_range]

/-- If one element of the list fails to convert, the whole `collect` fails. -/
theorem collectExcept_isOk_eq_false {f : α → Except ε β} {l : List α} {a : α}
    (ha : a ∈ l) (hfail : (f a).isOk = false) :
    (collectExcept f l).isOk = false := by
  induction l with
  | nil => cases ha
  | cons hd tl ih =>
    rw [collectExcept]
    rcases List.mem_cons.mp ha with rfl | hmem
    · rcases hfa : f a with e | b
      · rfl
      · rw [hfa] at hfail
        exact absurd hfail (by simp [Except.isOk, Except.toBool])
    · rcases hfa : f hd with e | b
      · rfl
      · rcases hc : collectExcept f tl with e | bs
        · rfl
        · rw [hc] at ih
          exact absurd (ih hmem) (by simp [Except.isOk, Except.toBool])

/-- **C8.** Binary decoding: `from_config_structure` fails whenever the
version is not 2; an encoded flag action fails to decode whenever its low 4
bits do not index `FLAG_ACTION_TYPES` (4 entries) or its bits from offset 8
do not index `FLAG_ACTION_VALUES` (6 entries); and any action that fails to
decode makes the whole `from_config_structure` fail, so no `Enhancements`
value is produced. -/
theorem c8_decode_error_conditions (input : EncodedEnhancements) (n : Nat) :
    (input.version ≠ 2 → (Enhancements.from_config_structure input).isOk = false)
    ∧ (4 ≤ n &&& FLAG_ACTION_TYPE_MASK ∨ 6 ≤ n >>> FLAG_ACTION_VALUE_OFFSET →
        (EncodedAction.into_action (.flagAction n)).isOk = false)
    ∧ (∀ r a, r ∈ input.rules → a ∈ r.actions →
        (EncodedAction.into_action a).isOk = false →
        (Enhancements.from_config_structure input).isOk = false) := by
  refine ⟨fun hv => ?_, fun hbits => ?_, fun r a hr ha hfail => ?_⟩
  · rw [Enhancements.from_config_structure, if_pos hv]
    rfl
  · rw [EncodedAction.into_action]
    rcases hbits with hty | hval
    · rw [List.get?_eq_none.mpr (by simpa [FLAG_ACTION_TYPES] using hty)]
      rfl
    · rcases hget : FLAG_ACTION_TYPES.get? (n &&& FLAG_ACTION_TYPE_MASK) with _ | ty
      · rfl
      · rw [List.get?_eq_none.mpr (by simpa [FLAG_ACTION_VALUES] using hval)]
        rfl
  · have hrule : (EncodedRule.into_rule r).isOk = false := by
      rw [EncodedRule.into_rule]
      rcases hm : collectExcept EncodedMatcher.into_matcher r.matchers with e | ms
      · rfl
      · have hacts := collectExcept_isOk_eq_false ha hfail
        rcases hc : collectExcept EncodedAction.into_action r.actions with e | acts
        · rfl
        · rw [hc] at hacts
          exact absurd hacts (by simp [Except.isOk, Except.toBool])
    rw [Enhancements.from_config_structure]
    by_cases hv : input.version ≠ 2
    · rw [if_pos hv]
      rfl
    · rw [if_neg hv]
      have hrules := collectExcept_isOk_eq_false hr hrule
      rcases hc : collectExcept EncodedRule.into_rule input.rules with e | rules
      · rfl
      · rw [hc] at hrules
        exact absurd hrules (by simp [Except.isOk, Except.toBool])

/-- Witness for `c8_decode_error_conditions`: a version-1 payload is
rejected, the encoded flag action `4` (low bits select no type) and
`6 <<< 8` (value bits select no (value, range) pair) are rejected, and a
version-2 payload whose only rule carries the bad action `4` is rejected as
a whole. -/
theorem c8_decode_error_conditions_witness :
    (Enhancements.from_config_structure ⟨1, [], []⟩).isOk = false
    ∧ (EncodedAction.into_action (.flagAction 4)).isOk = false
    ∧ (EncodedAction.into_action (.flagAction (6 <<< 8))).isOk = false
    ∧ (Enhancements.from_config_structure
        ⟨2, [], [⟨[], [.flagAction 4]⟩]⟩).isOk = false :=
  ⟨(c8_decode_error_conditions ⟨1, [], []⟩ 0).1 (by decide),
   (c8_decode_error_conditions ⟨1, [], []⟩ 4).2.1 (Or.inl (by decide)),
   (c8_decode_error_conditions ⟨1, [], []⟩ (6 <<< 8)).2.1 (Or.inr (by decide)),
   (c8_decode_error_conditions ⟨2, [], [⟨[], [.flagAction 4]⟩]⟩ 0).2.2
     ⟨[], [.flagAction 4]⟩ (.flagAction 4) (by decide) (by decide) (by decide)⟩

/-- The hint-seeding step succeeds (the `unwrap` of `frame.in_app` cannot
panic) whenever every frame with `in_app_last_changed` set also has `in_app`
set. -/
theorem seedInAppHints_isSome (components : List Component) (frames : List Frame)
    (h : ∀ f ∈ frames, f.in_app_last_changed.isSome → f.in_app.isSome) :
    (seedInAppHints components frames).isSome := by
  induction components generalizing frames with
  | nil =>
    cases frames with
    | nil => rfl
    | cons f fs => rfl
  | cons c cs ih =>
    cases frames with
    | nil => rfl
    | cons f fs =>
      have hf := h f (List.mem_cons_self f fs)
      have hrest : ∀ g ∈ fs, g.in_app_last_changed.isSome → g.in_app.isSome :=
        fun g hg => h g (List.mem_cons_of_mem f hg)
      rw [seedInAppHints]
      rcases hlc : f.in_app_last_changed with _ | rule
      · obtain ⟨v, hv⟩ := Option.isSome_iff_exists.mp (ih fs hrest)
        rw [hv]
        rfl
      · rcases hia : f.in_app with _ | b
        · rw [hlc, hia] at hf
          exact absurd (hf rfl) (by simp)
        · obtain ⟨v, hv⟩ := Option.isSome_iff_exists.mp (ih fs hrest)
          rw [hv]
          rfl

/-- **C10.** `update_frame_components_contributions` is total — the only
panic site is the `frame.in_app.unwrap()` of the hint-seeding step, which is
unreachable whenever every frame that has `in_app_last_changed` set also has
`in_app` set — and frames built by the bindings' `convert_frame_from_py`
always satisfy that precondition because their `in_app_last_changed` is
initialized to `None`. -/
theorem c10_updater_pass_total (rsem : RegexSem) (e : Enhancements)
    (components : List Component) (frames : List Frame) :
    ((∀ f ∈ frames, f.in_app_last_changed.isSome → f.in_app.isSome) →
      (e.update_frame_components_contributions rsem components frames).isSome)
    ∧ (∀ pyframe : PyFrame,
        (convert_frame_from_py pyframe).in_app_last_changed = Option.none)
    ∧ (∀ pyframes : List PyFrame, ∀ f ∈ pyframes.map convert_frame_from_py,
        f.in_app_last_changed.isSome → f.in_app.isSome) := by
  refine ⟨fun h => ?_, fun pyframe => rfl, fun pyframes f hf => ?_⟩
  · rw [Enhancements.update_frame_components_contributions]
    obtain ⟨v, hv⟩ := Option.isSome_iff_exists.mp (seedInAppHints_isSome components frames h)
    rw [hv]
    rfl
  · obtain ⟨pf, _, rfl⟩ := List.mem_map.mp hf
    intro hsome
    exact absurd hsome (by simp [convert_frame_from_py])

/-- Witness for `c10_updater_pass_total`: the empty rule set applied to one
fresh frame (whose `in_app_last_changed` is unset) satisfies the
precondition and the pass returns a value. -/
theorem c10_updater_pass_total_witness :
    (∀ f ∈ [({} : Frame)], f.in_app_last_changed.isSome → f.in_app.isSome)
    ∧ ((Enhancements.new []).update_frame_components_contributions falseSem
        [{ contributes := true }] [{}]).isSome :=
  ⟨by decide,
   (c10_updater_pass_total falseSem (Enhancements.new []) [{ contributes := true }] [{}]).1
     (by decide)⟩

/-- The component produced by the tail trim for a contributing component
beyond the allowed count. -/
def trimmedComponent (max_frames : Nat) (setter : Option Rule) (c : Component) :
    Component :=
  { c with contributes := false, hint := Option.some (ignoredHint max_frames setter) }

/-- Element-wise description of the reverse walk: position `k` of the
processed list is trimmed exactly when it contributes and the running count
up to and including it (starting from `n`) exceeds `max_frames`. -/
theorem trimRev_get? (max_frames : Nat) (setter : Option Rule)
    (l : List Component) :
    ∀ (n k : Nat),
      (trimRev max_frames setter n l).get? k =
        (l.get? k).map (fun c =>
          if c.contributes = true ∧
              max_frames < n + (l.take (k + 1)).countP (fun x => x.contributes) then
            trimmedComponent max_frames setter c
          else c) := by
  induction l with
  | nil => intro n k; rfl
  | cons c rest ih =>
    intro n k
    have hcnt1 : ((c :: rest).take (0 + 1)).countP (fun x => x.contributes)
        = if c.contributes then 1 else 0 := by
      rw [List.take_succ_cons, List.take_zero, List.countP_cons, List.countP_nil]
      omega
    have hcntS : ∀ k' : Nat, ((c :: rest).take (k' + 1 + 1)).countP (fun x => x.contributes)
        = (rest.take (k' + 1)).countP (fun x => x.contributes)
          + (if c.contributes then 1 else 0) := by
      intro k'
      rw [List.take_succ_cons, List.countP_cons]
    rw [trimRev]
    by_cases hc : c.contributes = true
    · by_cases hn : n + 1 ≤ max_frames
      · rw [if_neg (by simp [hc]), if_pos hn]
        cases k with
        | zero =>
          rw [List.get?_cons_zero, List.get?_cons_zero, Option.map_some']
          rw [if_neg (by rw [hcnt1, if_pos hc]; rintro ⟨-, hlt⟩; omega)]
        | succ k =>
          rw [List.get?_cons_succ, List.get?_cons_succ, ih (n + 1) k]
          rcases hrk : rest.get? k with _ | d
          · rfl
          · rw [Option.map_some', Option.map_some']
            have hcount : (n + 1) + ((rest.take (k + 1)).countP (fun x => x.contributes))
                = n + (((c :: rest).take (k + 1 + 1)).countP (fun x => x.contributes)) := by
              rw [hcntS k, if_pos hc]
              omega
            rw [hcount]
      · rw [if_neg (by simp [hc]), if_neg hn]
        cases k with
        | zero =>
          rw [List.get?_cons_zero, List.get?_cons_zero, Option.map_some']
          rw [if_pos ⟨hc, by rw [hcnt1, if_pos hc]; omega⟩]
          rfl
        | succ k =>
          rw [List.get?_cons_succ, List.get?_cons_succ, ih (n + 1) k]
          rcases hrk : rest.get? k with _ | d
          · rfl
          · rw [Option.map_some', Option.map_some']
            have hcount : (n + 1) + ((rest.take (k + 1)).countP (fun x => x.contributes))
                = n + (((c :: rest).take (k + 1 + 1)).countP (fun x => x.contributes)) := by
              rw [hcntS k, if_pos hc]
              omega
            rw [hcount]
    · rw [if_pos (by simpa using hc)]
      cases k with
      | zero =>
        rw [List.get?_cons_zero, List.get?_cons_zero, Option.map_some']
        rw [if_neg (by rintro ⟨h1, -⟩; exact hc h1)]
      | succ k =>
        rw [List.get?_cons_succ, List.get?_cons_succ, ih n k]
        rcases hrk : rest.get? k with _ | d
        · rfl
        · rw [Option.map_some', Option.map_some']
          have hcount : n + ((rest.take (k + 1)).countP (fun x => x.contributes))
              = n + (((c :: rest).take (k + 1 + 1)).countP (fun x => x.contributes)) := by
            rw [hcntS k, if_neg (by simpa using hc)]
            omega
          rw [hcount]

/-- The reverse walk leaves exactly `min (count, max_frames - n)` components
contributing. -/
theorem trimRev_countP (max_frames : Nat) (setter : Option Rule)
    (l : List Component) :
    ∀ (n : Nat),
      (trimRev max_frames setter n l).countP (fun c => c.contributes) =
        min (l.countP (fun c => c.contributes)) (max_frames - n) := by
  induction l with
  | nil => intro n; simp [trimRev, List.countP_nil]
  | cons c rest ih =>
    intro n
    rw [trimRev]
    by_cases hc : c.contributes = true
    · by_cases hn : n + 1 ≤ max_frames
      · rw [if_neg (by simp [hc]), if_pos hn]
        simp [List.countP_cons, hc, ih (n + 1)]
        omega
      · rw [if_neg (by simp [hc]), if_neg hn]
        simp [List.countP_cons, hc, trimmedComponent, ih (n + 1)]
        omega
    · have hc' : c.contributes = false := by simpa using hc
      rw [if_pos (by simp [hc'])]
      simp [List.countP_cons, hc', ih n]

/-- `countP` is invariant under `reverse`. -/
theorem countP_reverse (p : Component → Bool) (l : List Component) :
    l.reverse.countP p = l.countP p := by
  rw [List.countP_eq_length_filter, List.countP_eq_length_filter,
    List.filter_reverse, List.length_reverse]

/-- The in-order trim: its contributing count is capped at `max_frames`. -/
theorem trimMaxFrames_countP (max_frames : Nat) (setter : Option Rule)
    (components : List Component) :
    (trimMaxFrames max_frames setter components).countP (fun c => c.contributes) =
      min (components.countP (fun c => c.contributes)) max_frames := by
  rw [trimMaxFrames, countP_reverse, trimRev_countP, countP_reverse, Nat.sub_zero]

/-- In-order element-wise description of the trim: the component at `i` is
trimmed exactly when it contributes and more than `max_frames` components
contribute from position `i` to the end. -/
theorem trimMaxFrames_get? (max_frames : Nat) (setter : Option Rule)
    (components : List Component) (i : Nat) (c : Component)
    (hi : components.get? i = Option.some c) :
    (trimMaxFrames max_frames setter components).get? i =
      Option.some (
        if c.contributes = true ∧
            max_frames < (components.drop i).countP (fun x => x.contributes) then
          trimmedComponent max_frames setter c
        else c) := by
  have hilen : i < components.length := by
    by_contra hge
    rw [List.get?_eq_none.mpr (by omega)] at hi
    exact Option.noConfusion hi
  have hlen : (trimRev max_frames setter 0 components.reverse).length
      = components.length := by
    have : ∀ (l : List Component) (n : Nat),
        (trimRev max_frames setter n l).length = l.length := by
      intro l
      induction l with
      | nil => intro n; rfl
      | cons c rest ih =>
        intro n
        rw [trimRev]
        by_cases hc : c.contributes = true
        · by_cases hn : n + 1 ≤ max_frames
          · rw [if_neg (by simp [hc]), if_pos hn]
            simp [ih]
          · rw [if_neg (by simp [hc]), if_neg hn]
            simp [ih]
        · rw [if_pos (by simpa using hc)]
          simp [ih]
    rw [this, List.length_reverse]
  rw [trimMaxFrames, List.get?_reverse (by rw [hlen]; omega), hlen]
  rw [trimRev_get?]
  have hrev : components.reverse.get? (components.length - 1 - i) = Option.some c := by
    rw [List.get?_reverse (by omega)]
    have : components.length - 1 - (components.length - 1 - i) = i := by omega
    rw [this, hi]
  rw [hrev]
  have htake : (components.reverse.take (components.length - 1 - i + 1)).countP
      (fun x => x.contributes) = (components.drop i).countP (fun x => x.contributes) := by
    have hsub : components.length - 1 - i + 1 = components.length - i := by omega
    rw [hsub]
    rw [List.take_reverse]
    rw [countP_reverse]
    congr 2
    omega
  rw [htake]
  simp

/-- **C4.** After `update_frame_components_contributions` returns with
`max_frames > 0`, the result factors as the tail trim of the pre-trim
component state `pre` (hint seeding followed by the updater rules): at most
`max_frames` components still contribute (the count is exactly
`min (contributing, max_frames)`), and the component at `i` survives exactly
when it contributed in `pre` and at most `max_frames` components contribute
from `i` onwards — i.e. the survivors are the *last* `max_frames`
contributing components — every other contributing component being replaced
by `contributes = false` with the hint
`"ignored because only N frame(s) {is|are} considered"`, suffixed with
`" by stack trace rule ({setter})"` only when a setter was recorded
(`ignoredHint`/`trimmedComponent`). -/
theorem c4_max_frames_trim (rsem : RegexSem) (e : Enhancements)
    (components : List Component) (frames : List Frame)
    (cs : List Component) (st : StacktraceState)
    (hupd : e.update_frame_components_contributions rsem components frames
      = Option.some (cs, st))
    (hpos : 0 < st.max_frames.value) :
    ∃ seeded pre,
      seedInAppHints components frames = Option.some seeded
      ∧ runUpdaterRules rsem e.updater_rules seeded frames {} = (pre, st)
      ∧ cs = trimMaxFrames st.max_frames.value st.max_frames.setter pre
      ∧ cs.countP (fun c => c.contributes)
          = min (pre.countP (fun c => c.contributes)) st.max_frames.value
      ∧ cs.countP (fun c => c.contributes) ≤ st.max_frames.value
      ∧ (∀ i c, pre.get? i = Option.some c →
          cs.get? i = Option.some (
            if c.contributes = true ∧
                st.max_frames.value < (pre.drop i).countP (fun x => x.contributes) then
              trimmedComponent st.max_frames.value st.max_frames.setter c
            else c)) := by
  rw [Enhancements.update_frame_components_contributions] at hupd
  rcases hseed : seedInAppHints components frames with _ | seeded
  · rw [hseed] at hupd
    exact absurd hupd (by simp)
  · rw [hseed] at hupd
    rcases hrun : runUpdaterRules rsem e.updater_rules seeded frames {} with ⟨pre, st0⟩
    rw [Option.map_some'] at hupd
    rw [hrun] at hupd
    have hpair := Option.some.inj hupd
    have hst : st0 = st := congrArg Prod.snd hpair
    subst hst
    have hcs : cs = if 0 < st0.max_frames.value then
        trimMaxFrames st0.max_frames.value st0.max_frames.setter pre else pre :=
      (congrArg Prod.fst hpair).symm
    rw [if_pos hpos] at hcs
    subst hcs
    refine ⟨seeded, pre, rfl, hrun, rfl, ?_, ?_, ?_⟩
    · exact trimMaxFrames_countP _ _ _
    · rw [trimMaxFrames_countP]
      omega
    · intro i c hc
      exact trimMaxFrames_get? _ _ _ _ _ hc

/-- The rule `max-frames=1`. -/
def maxFramesOneRule : Rule := ⟨[], [], [.var (.maxFrames 1)]⟩

/-- Two contributing components. -/
def c4Components : List Component := [{ contributes := true }, { contributes := true }]

/-- Two frames (every rule with no frame matchers matches them). -/
def c4Frames : List Frame := [{}, {}]

/-- The stacktrace state after `max-frames=1` ran. -/
def c4State : StacktraceState := { max_frames := ⟨1, Option.some maxFramesOneRule⟩ }

/-- The component state after the trim: only the last contributing component
survives; the first is ignored with the trim hint. -/
def c4Result : List Component :=
  [{ hint := Option.some
      "ignored because only 1 frame is considered by stack trace rule (max-frames=1)" },
   { contributes := true }]

/-- Witness for `c4_max_frames_trim`: the rule `max-frames=1` over two
contributing components leaves exactly the last one contributing and stamps
the trim hint (with setter suffix) on the first. -/
theorem c4_max_frames_trim_witness :
    (Enhancements.new [maxFramesOneRule]).update_frame_components_contributions
        falseSem c4Components c4Frames = Option.some (c4Result, c4State)
    ∧ 0 < c4State.max_frames.value
    ∧ ∃ seeded pre,
        seedInAppHints c4Components c4Frames = Option.some seeded
        ∧ runUpdaterRules falseSem (Enhancements.new [maxFramesOneRule]).updater_rules
            seeded c4Frames {} = (pre, c4State)
        ∧ c4Result = trimMaxFrames c4State.max_frames.value c4State.max_frames.setter pre
        ∧ c4Result.countP (fun c => c.contributes)
            = min (pre.countP (fun c => c.contributes)) c4State.max_frames.value
        ∧ c4Result.countP (fun c => c.contributes) ≤ c4State.max_frames.value
        ∧ (∀ i c, pre.get? i = Option.some c →
            c4Result.get? i = Option.some (
              if c.contributes = true ∧
                  c4State.max_frames.value <
                    (pre.drop i).countP (fun x => x.contributes) then
                trimmedComponent c4State.max_frames.value c4State.max_frames.setter c
              else c)) :=
  ⟨by decide, by decide,
   c4_max_frames_trim falseSem (Enhancements.new [maxFramesOneRule]) c4Components
     c4Frames c4Result c4State (by decide) (by decide)⟩

/-! ## Idempotence analysis of the modifier pass -/

theorem mapIdxFrom_get? (f : Nat → α → α) (l : List α) :
    ∀ (k j : Nat), (mapIdxFrom f k l).get? j = (l.get? j).map (f (k + j)) := by
  induction l with
  | nil => intro k j; rfl
  | cons a l ih =>
    intro k j
    cases j with
    | zero =>
      rw [mapIdxFrom, List.get?_cons_zero, List.get?_cons_zero, Option.map_some',
        Nat.add_zero]
    | succ j =>
      rw [mapIdxFrom, List.get?_cons_succ, List.get?_cons_succ, ih (k + 1) j]
      have : k + 1 + j = k + (j + 1) := by omega
      rw [this]

theorem mapIdx'_get? (f : Nat → α → α) (l : List α) (j : Nat) :
    (mapIdx' f l).get? j = (l.get? j).map (f j) := by
  rw [mapIdx', mapIdxFrom_get?, Nat.zero_add]

theorem mapIdxFrom_length (f : Nat → α → α) (l : List α) :
    ∀ k : Nat, (mapIdxFrom f k l).length = l.length := by
  induction l with
  | nil => intro k; rfl
  | cons a l ih =>
    intro k
    rw [mapIdxFrom, List.length_cons, List.length_cons, ih (k + 1)]

theorem mapIdx'_length (f : Nat → α → α) (l : List α) :
    (mapIdx' f l).length = l.length :=
  mapIdxFrom_length f l 0

theorem mapIdx'_congr {f g : Nat → α → α} (l : List α)
    (h : ∀ j a, f j a = g j a) : mapIdx' f l = mapIdx' g l := by
  apply List.ext_get?
  intro j
  rw [mapIdx'_get?, mapIdx'_get?]
  cases l.get? j with
  | none => rfl
  | some a => rw [Option.map_some', Option.map_some', h j a]

theorem mapIdx'_mapIdx' (f g : Nat → α → α) (l : List α) :
    mapIdx' f (mapIdx' g l) = mapIdx' (fun j a => f j (g j a)) l := by
  apply List.ext_get?
  intro j
  rw [mapIdx'_get?, mapIdx'_get?, mapIdx'_get?]
  cases l.get? j with
  | none => rfl
  | some a => rw [Option.map_some', Option.map_some', Option.map_some']

theorem mapIdx'_id (l : List α) : mapIdx' (fun _ a => a) l = l := by
  apply List.ext_get?
  intro j
  rw [mapIdx'_get?]
  cases l.get? j with
  | none => rfl
  | some a => rw [Option.map_some']

/-- The effect of one modifier action on the frame it targets: `±app` sets
`in_app`, `category=…` sets `category`, anything else leaves the frame
alone. -/
def applyFrameAction : Action → Frame → Frame
  | .flag fa, f => if fa.ty = .app then { f with in_app := Option.some fa.flag } else f
  | .var (.category v), f => { f with category := Option.some v }
  | .var _, f => f

/-- The combined per-frame effect of a rule's actions at the matched index. -/
def applyFrameActions (actions : List Action) (f : Frame) : Frame :=
  actions.foldl (fun f a => applyFrameAction a f) f

/-- An action whose flag part (if any) has range `None` only writes the
frame at the matched index, and does so by `applyFrameAction`. -/
theorem action_apply_local (a : Action)
    (ha : ∀ fa, a = .flag fa → fa.range = Option.none)
    (frames : List Frame) (idx : Nat) :
    a.apply_modifications_to_frame frames idx =
      mapIdx' (fun j f => if j = idx then applyFrameAction a f else f) frames := by
  match a with
  | .flag fa =>
    have hrange : fa.range = Option.none := ha fa rfl
    rw [Action.apply_modifications_to_frame, FlagAction.apply_modifications_to_frame]
    by_cases hty : fa.ty = .app
    · rw [if_pos hty]
      apply mapIdx'_congr
      intro j f
      rw [hrange]
      by_cases hj : j = idx
      · rw [if_pos (by simp [inSliceRange, hj]), if_pos hj]
        simp [applyFrameAction, hty]
      · rw [if_neg (by simp [inSliceRange, hj]), if_neg hj]
    · rw [if_neg hty]
      rw [show (fun j f => if j = idx then applyFrameAction (Action.flag fa) f else f)
          = fun j (f : Frame) => f from ?_, mapIdx'_id]
      funext j f
      by_cases hj : j = idx
      · rw [if_pos hj]
        simp [applyFrameAction, hty]
      · rw [if_neg hj]
  | .var (.category v) =>
    rw [Action.apply_modifications_to_frame, VarAction.apply_modifications_to_frame]
    apply mapIdx'_congr
    intro j f
    by_cases hj : j = idx
    · rw [if_pos hj, if_pos hj]
      rfl
    · rw [if_neg hj, if_neg hj]
  | .var (.minFrames v) =>
    have hL : (Action.var (VarAction.minFrames v)).apply_modifications_to_frame frames idx
        = frames := rfl
    rw [hL, show (fun j f => if j = idx then applyFrameAction (Action.var (.minFrames v)) f else f)
        = fun j (f : Frame) => f from ?_, mapIdx'_id]
    funext j f
    by_cases hj : j = idx
    · rw [if_pos hj]
      rfl
    · rw [if_neg hj]
  | .var (.maxFrames v) =>
    have hL : (Action.var (VarAction.maxFrames v)).apply_modifications_to_frame frames idx
        = frames := rfl
    rw [hL, show (fun j f => if j = idx then applyFrameAction (Action.var (.maxFrames v)) f else f)
        = fun j (f : Frame) => f from ?_, mapIdx'_id]
    funext j f
    by_cases hj : j = idx
    · rw [if_pos hj]
      rfl
    · rw [if_neg hj]
  | .var (.invertStacktrace v) =>
    have hL : (Action.var (VarAction.invertStacktrace v)).apply_modifications_to_frame frames idx
        = frames := rfl
    rw [hL, show (fun j f => if j = idx then applyFrameAction (Action.var (.invertStacktrace v)) f else f)
        = fun j (f : Frame) => f from ?_, mapIdx'_id]
    funext j f
    by_cases hj : j = idx
    · rw [if_pos hj]
      rfl
    · rw [if_neg hj]

/-- A rule whose flag actions all have range `None` writes, at a matched
index, exactly `applyFrameActions` to that frame and nothing else. -/
theorem rule_apply_local (actions : List Action)
    (ha : ∀ fa, Action.flag fa ∈ actions → fa.range = Option.none) :
    ∀ (frames : List Frame) (idx : Nat),
      actions.foldl (fun frames action =>
        action.apply_modifications_to_frame frames idx) frames =
      mapIdx' (fun j f => if j = idx then applyFrameActions actions f else f) frames := by
  induction actions with
  | nil =>
    intro frames idx
    rw [List.foldl_nil]
    rw [show (fun j f => if j = idx then applyFrameActions [] f else f)
        = fun j (f : Frame) => f from ?_, mapIdx'_id]
    funext j f
    by_cases hj : j = idx
    · rw [if_pos hj]
      rfl
    · rw [if_neg hj]
  | cons a rest ih =>
    intro frames idx
    rw [List.foldl_cons]
    rw [ih (fun fa hfa => ha fa (List.mem_cons_of_mem a hfa))]
    rw [action_apply_local a (fun fa hfa => ha fa (hfa ▸ List.mem_cons_self a rest))]
    rw [mapIdx'_mapIdx']
    apply mapIdx'_congr
    intro j f
    by_cases hj : j = idx
    · rw [if_pos hj, if_pos hj, if_pos hj]
      rfl
    · rw [if_neg hj, if_neg hj, if_neg hj]

/-- Folding single-index updates over a duplicate-free index list is the same
as one pass updating every listed index. -/
theorem foldl_singleIdx_updates (g : Frame → Frame) :
    ∀ (is : List Nat), is.Nodup → ∀ (frames : List Frame),
      is.foldl (fun fs i => mapIdx' (fun j f => if j = i then g f else f) fs) frames =
        mapIdx' (fun j f => if j ∈ is then g f else f) frames := by
  intro is
  induction is with
  | nil =>
    intro _ frames
    rw [List.foldl_nil]
    rw [show (fun j f => if j ∈ ([] : List Nat) then g f else f)
        = fun j (f : Frame) => f from ?_, mapIdx'_id]
    funext j f
    rw [if_neg (by simp)]
  | cons i rest ih =>
    intro hnodup frames
    have hni : i ∉ rest := (List.nodup_cons.mp hnodup).1
    rw [List.foldl_cons, ih (List.nodup_cons.mp hnodup).2, mapIdx'_mapIdx']
    apply mapIdx'_congr
    intro j f
    by_cases hj : j = i
    · rw [if_pos hj, if_neg (by rw [hj]; exact fun h => hni h),
        if_pos (by rw [hj]; exact List.mem_cons_self i rest)]
    · rw [if_neg hj]
      by_cases hmem : j ∈ rest
      · rw [if_pos hmem, if_pos (List.mem_cons_of_mem i hmem)]
      · rw [if_neg hmem, if_neg (by rw [List.mem_cons]; rintro (h | h) <;> [exact hj h; exact hmem h])]

/-- The per-frame matching function of a rule all of whose matchers carry no
offset. -/
def frameLocalMatch (rsem : RegexSem) (rule : Rule) (f : Frame) : Bool :=
  rule.frame_matchers.all (fun m => m.negated.xor (m.inner.matches_frame rsem f))

/-- Under offset-free matchers, whether a rule matches at an index depends
only on the frame at that index. -/
theorem matches_frame_local (rsem : RegexSem) (rule : Rule)
    (hoff : ∀ m ∈ rule.frame_matchers, m.frame_offset = FrameOffset.none)
    (frames : List Frame) (idx : Nat) (f : Frame)
    (hf : frames.get? idx = Option.some f) :
    rule.matches_frame rsem frames idx = frameLocalMatch rsem rule f := by
  rw [Rule.matches_frame, frameLocalMatch]
  have : ∀ ms : List FrameMatcher, (∀ m ∈ ms, m.frame_offset = FrameOffset.none) →
      ms.all (fun m => m.matches_frame rsem frames idx)
        = ms.all (fun m => m.negated.xor (m.inner.matches_frame rsem f)) := by
    intro ms
    induction ms with
    | nil => intro _; rfl
    | cons m rest ih =>
      intro hms
      rw [List.all_cons, List.all_cons,
        ih (fun m' hm' => hms m' (List.mem_cons_of_mem m hm'))]
      have hm : m.frame_offset = FrameOffset.none := hms m (List.mem_cons_self m rest)
      have hone : m.matches_frame rsem frames idx
          = m.negated.xor (m.inner.matches_frame rsem f) := by
        rw [FrameMatcher.matches_frame, hm]
        dsimp only
        rw [hf]
      rw [hone]
  exact this rule.frame_matchers hoff

/-- The last value a list of actions assigns through `upd`, starting from
`c0` (`foldl`, last write wins). -/
def lastEff (upd : Action → Option X) (actions : List Action) (c0 : Option X) :
    Option X :=
  actions.foldl (fun c a =>
    match upd a with
    | Option.some v => Option.some v
    | Option.none => c) c0

/-- `lastEff` either computes a value independent of the start, or passes the
start through. -/
theorem lastEff_run (upd : Action → Option X) (actions : List Action) :
    ∀ c0 : Option X,
      lastEff upd actions c0 =
        match lastEff upd actions Option.none with
        | Option.some v => Option.some v
        | Option.none => c0 := by
  induction actions with
  | nil => intro c0; rfl
  | cons a rest ih =>
    intro c0
    rcases hu : upd a with _ | v
    · have h1 : lastEff upd (a :: rest) c0 = lastEff upd rest c0 := by
        rw [lastEff, List.foldl_cons, hu]
        rfl
      have h2 : lastEff upd (a :: rest) Option.none = lastEff upd rest Option.none := by
        rw [lastEff, List.foldl_cons, hu]
        rfl
      rw [h1, h2, ih c0]
    · have h1 : lastEff upd (a :: rest) c0 = lastEff upd rest (Option.some v) := by
        rw [lastEff, List.foldl_cons, hu]
        rfl
      have h2 : lastEff upd (a :: rest) Option.none = lastEff upd rest (Option.some v) := by
        rw [lastEff, List.foldl_cons, hu]
        rfl
      rw [h1, h2, ih (Option.some v)]
      rcases lastEff upd rest Option.none with _ | w
      · rfl
      · rfl

/-- Running `lastEff` on its own output changes nothing. -/
theorem lastEff_idem (upd : Action → Option X) (actions : List Action) (c0 : Option X) :
    lastEff upd actions (lastEff upd actions c0) = lastEff upd actions c0 := by
  rw [lastEff_run upd actions c0, lastEff_run upd actions]
  rcases lastEff upd actions Option.none with _ | v
  · rfl
  · rfl

/-- The `category` assignment of an action. -/
def catUpd : Action → Option String
  | .var (.category v) => Option.some v
  | _ => Option.none

/-- The `in_app` assignment of an action. -/
def appUpd : Action → Option Bool
  | .flag fa => if fa.ty = .app then Option.some fa.flag else Option.none
  | _ => Option.none

/-- A rule's combined per-frame effect only rewrites `category` and `in_app`,
each to the last value assigned by its actions. -/
theorem applyFrameActions_eq_effects (actions : List Action) :
    ∀ f : Frame,
      applyFrameActions actions f =
        { f with
          category := lastEff catUpd actions f.category
          in_app := lastEff appUpd actions f.in_app } := by
  induction actions with
  | nil => intro f; rfl
  | cons a rest ih =>
    intro f
    have hfold : applyFrameActions (a :: rest) f
        = applyFrameActions rest (applyFrameAction a f) := rfl
    rw [hfold, ih (applyFrameAction a f)]
    match a with
    | .flag fa =>
      by_cases hty : fa.ty = .app
      · have h1 : applyFrameAction (.flag fa) f = { f with in_app := Option.some fa.flag } := by
          rw [applyFrameAction, if_pos hty]
        have h2 : lastEff catUpd (.flag fa :: rest) f.category
            = lastEff catUpd rest f.category := by
          rw [lastEff, List.foldl_cons, show catUpd (.flag fa) = Option.none from rfl]
          rfl
        have h3 : lastEff appUpd (.flag fa :: rest) f.in_app
            = lastEff appUpd rest (Option.some fa.flag) := by
          rw [lastEff, List.foldl_cons, show appUpd (.flag fa) = if fa.ty = .app then Option.some fa.flag else Option.none from rfl, if_pos hty]
          rfl
        rw [h1, h2, h3]
      · have h1 : applyFrameAction (.flag fa) f = f := by
          rw [applyFrameAction, if_neg hty]
        have h2 : lastEff catUpd (.flag fa :: rest) f.category
            = lastEff catUpd rest f.category := by
          rw [lastEff, List.foldl_cons, show catUpd (.flag fa) = Option.none from rfl]
          rfl
        have h3 : lastEff appUpd (.flag fa :: rest) f.in_app
            = lastEff appUpd rest f.in_app := by
          rw [lastEff, List.foldl_cons, show appUpd (.flag fa) = if fa.ty = .app then Option.some fa.flag else Option.none from rfl, if_neg hty]
          rfl
        rw [h1, h2, h3]
    | .var (.category v) =>
      have h1 : applyFrameAction (.var (.category v)) f
          = { f with category := Option.some v } := rfl
      have h2 : lastEff catUpd (.var (.category v) :: rest) f.category
          = lastEff catUpd rest (Option.some v) := rfl
      have h3 : lastEff appUpd (.var (.category v) :: rest) f.in_app
          = lastEff appUpd rest f.in_app := rfl
      rw [h1, h2, h3]
    | .var (.minFrames v) =>
      have h1 : applyFrameAction (.var (.minFrames v)) f = f := rfl
      rw [h1]
      rfl
    | .var (.maxFrames v) =>
      have h1 : applyFrameAction (.var (.maxFrames v)) f = f := rfl
      rw [h1]
      rfl
    | .var (.invertStacktrace v) =>
      have h1 : applyFrameAction (.var (.invertStacktrace v)) f = f := rfl
      rw [h1]
      rfl

/-- The per-frame effect of a rule's actions is idempotent. -/
theorem applyFrameActions_idem (actions : List Action) (f : Frame) :
    applyFrameActions actions (applyFrameActions actions f) =
      applyFrameActions actions f := by
  rw [applyFrameActions_eq_effects actions f, applyFrameActions_eq_effects actions]
  dsimp only
  rw [lastEff_idem, lastEff_idem]

/-- The collect-then-mutate pass of a rule with offset-free matchers and
range-free actions, run on its own output, changes nothing. -/
theorem applyRuleModifications_idem (rsem : RegexSem) (rule : Rule)
    (hoff : ∀ m ∈ rule.frame_matchers, m.frame_offset = FrameOffset.none)
    (hrange : ∀ fa, Action.flag fa ∈ rule.actions → fa.range = Option.none)
    (frames : List Frame) :
    applyRuleModifications rsem rule (applyRuleModifications rsem rule frames)
      = applyRuleModifications rsem rule frames := by
  have hpass : ∀ fs : List Frame, applyRuleModifications rsem rule fs
      = mapIdx' (fun j f =>
          if j ∈ matchedIndices rsem rule fs then applyFrameActions rule.actions f
          else f) fs := by
    intro fs
    rw [applyRuleModifications]
    have hstep : ∀ (is : List Nat) (fs' : List Frame),
        is.foldl (fun fs idx => rule.apply_modifications_to_frame fs idx) fs'
        = is.foldl (fun fs i =>
            mapIdx' (fun j f => if j = i then applyFrameActions rule.actions f else f) fs)
            fs' := by
      intro is
      induction is with
      | nil => intro fs'; rfl
      | cons i rest ih =>
        intro fs'
        rw [List.foldl_cons, List.foldl_cons, ih,
          show rule.apply_modifications_to_frame fs' i
            = mapIdx' (fun j f => if j = i then applyFrameActions rule.actions f else f) fs'
            from rule_apply_local rule.actions hrange fs' i]
    rw [hstep]
    exact foldl_singleIdx_updates (applyFrameActions rule.actions)
      (matchedIndices rsem rule fs)
      ((List.nodup_range fs.length).filter _) fs
  have hlen1 : (applyRuleModifications rsem rule frames).length = frames.length := by
    rw [hpass frames, mapIdx'_length]
  rw [hpass (applyRuleModifications rsem rule frames)]
  apply List.ext_get?
  intro j
  rw [mapIdx'_get?]
  rcases hj : (applyRuleModifications rsem rule frames).get? j with _ | f1
  · rfl
  · rw [Option.map_some']
    by_cases hmem : j ∈ matchedIndices rsem rule (applyRuleModifications rsem rule frames)
    · rw [if_pos hmem]
      have hjlen : j < frames.length := by
        by_contra hge
        rw [List.get?_eq_none.mpr (by omega : (applyRuleModifications rsem rule frames).length ≤ j)] at hj
        exact Option.noConfusion hj
      rcases hgf : frames.get? j with _ | f0
      · exact absurd (List.get?_eq_none.mp hgf) (by omega)
      · have hF1j : (applyRuleModifications rsem rule frames).get? j
            = Option.some (if j ∈ matchedIndices rsem rule frames
                then applyFrameActions rule.actions f0 else f0) := by
          rw [hpass frames, mapIdx'_get?, hgf, Option.map_some']
        rw [hj] at hF1j
        have hf1 := Option.some.inj hF1j
        by_cases hm1 : j ∈ matchedIndices rsem rule frames
        · rw [if_pos hm1] at hf1
          rw [hf1, applyFrameActions_idem]
        · exfalso
          rw [if_neg hm1] at hf1
          have hmatchF1 : rule.matches_frame rsem
              (applyRuleModifications rsem rule frames) j = true :=
            (List.mem_filter.mp hmem).2
          have hnomatch : rule.matches_frame rsem frames j = false := by
            rcases hb : rule.matches_frame rsem frames j with _ | _
            · rfl
            · exact absurd (List.mem_filter.mpr
                ⟨List.mem_range.mpr hjlen, hb⟩) hm1
          rw [matches_frame_local rsem rule hoff _ j f1 hj] at hmatchF1
          rw [matches_frame_local rsem rule hoff _ j f0 hgf] at hnomatch
          rw [hf1, hnomatch] at hmatchF1
          exact Bool.noConfusion hmatchF1
    · rw [if_neg hmem]

/-- The single-rule modifier pass, as `apply_modifications_to_frames` runs it
for `Enhancements::new([rule])`. -/
theorem single_rule_pass (rsem : RegexSem) (rule : Rule) (ed : ExceptionData)
    (fs : List Frame) :
    (Enhancements.new [rule]).apply_modifications_to_frames rsem fs ed
      = if rule.has_modifier_action = true then
          (if rule.matches_exception rsem ed = true
            then applyRuleModifications rsem rule fs else fs)
        else fs := by
  rw [Enhancements.apply_modifications_to_frames]
  show (List.filter Rule.has_modifier_action [rule]).foldl _ fs = _
  by_cases hmod : rule.has_modifier_action = true
  · rw [if_pos hmod]
    rw [show List.filter Rule.has_modifier_action [rule] = [rule] from by
      rw [List.filter_cons, if_pos hmod]; rfl]
    rw [List.foldl_cons, List.foldl_nil]
  · rw [if_neg hmod]
    rw [show List.filter Rule.has_modifier_action [rule] = [] from by
      rw [List.filter_cons, if_neg hmod]; rfl]
    rfl

/-- **C9 (counterexample).** The claim asserts idempotence of the modifier
pass for *every* single rule.  The rule `app:yes v+app category=bar` (match
frames whose `in_app` is `true`; set `in_app = true` on all frames below the
match; set the matched frame's category) refutes it on the frames
`[{}, {in_app: true}]`: the first run makes frame 0 match, so the second run
additionally writes `category = "bar"` onto frame 0 — two runs differ from
one. -/
theorem c9_modifier_pass_not_idempotent :
    (let rule : Rule := ⟨[⟨false, .none, .inApp true, "yes"⟩], [],
        [.flag ⟨true, .app, Option.some .down⟩, .var (.category "bar")]⟩
     let frames : List Frame := [{}, { in_app := Option.some true }]
     let once := (Enhancements.new [rule]).apply_modifications_to_frames falseSem frames {}
     ((Enhancements.new [rule]).apply_modifications_to_frames falseSem once {} ≠ once)
     ∧ once = [{ in_app := Option.some true },
               { category := Option.some "bar", in_app := Option.some true }]
     ∧ (Enhancements.new [rule]).apply_modifications_to_frames falseSem once {}
        = [{ category := Option.some "bar", in_app := Option.some true },
           { category := Option.some "bar", in_app := Option.some true }]) := by
  refine ⟨by decide, by decide, by decide⟩

/-- **C9 (amended).** For every rule whose frame matchers all use offset
`None` (no caller/callee lookup) and whose flag actions all use range `None`
(only the matched frame is written), the single-rule modifier pass is
idempotent: running it twice leaves the frames exactly as running it once,
for every frame list and exception data.  (The `±app` and `category=` writes
are idempotent per frame; restricting offsets and ranges ensures the second
run's matched set cannot pick up frames changed via a neighbour, which is
what the counterexample exploits.) -/
theorem c9_modifier_pass_idempotent_local (rsem : RegexSem) (rule : Rule)
    (frames : List Frame) (ed : ExceptionData)
    (hoff : ∀ m ∈ rule.frame_matchers, m.frame_offset = FrameOffset.none)
    (hrange : ∀ fa, Action.flag fa ∈ rule.actions → fa.range = Option.none) :
    (Enhancements.new [rule]).apply_modifications_to_frames rsem
      ((Enhancements.new [rule]).apply_modifications_to_frames rsem frames ed) ed
    = (Enhancements.new [rule]).apply_modifications_to_frames rsem frames ed := by
  rw [single_rule_pass rsem rule ed
    ((Enhancements.new [rule]).apply_modifications_to_frames rsem frames ed),
    single_rule_pass rsem rule ed frames]
  by_cases hmod : rule.has_modifier_action = true
  · by_cases hex : rule.matches_exception rsem ed = true
    · simp only [hmod, hex, if_true]
      exact applyRuleModifications_idem rsem rule hoff hrange frames
    · have hex' : rule.matches_exception rsem ed = false := by
        simpa using hex
      simp [hmod, hex']
  · have hmod' : rule.has_modifier_action = false := by
      simpa using hmod
    simp [hmod']

/-- Witness for `c9_modifier_pass_idempotent_local`: the rule `app:no +app`
(offset-free matcher, range-free action) applied twice to
`[{}, {in_app: false}]` equals applying it once. -/
theorem c9_modifier_pass_idempotent_local_witness :
    (∀ m ∈ (⟨[⟨false, .none, .inApp false, "no"⟩], [],
        [.flag ⟨true, .app, Option.none⟩]⟩ : Rule).frame_matchers,
      m.frame_offset = FrameOffset.none)
    ∧ (∀ fa, Action.flag fa ∈ (⟨[⟨false, .none, .inApp false, "no"⟩], [],
        [.flag ⟨true, .app, Option.none⟩]⟩ : Rule).actions →
      fa.range = Option.none)
    ∧ (Enhancements.new [⟨[⟨false, .none, .inApp false, "no"⟩], [],
          [.flag ⟨true, .app, Option.none⟩]⟩]).apply_modifications_to_frames falseSem
        ((Enhancements.new [⟨[⟨false, .none, .inApp false, "no"⟩], [],
          [.flag ⟨true, .app, Option.none⟩]⟩]).apply_modifications_to_frames falseSem
          [{}, { in_app := Option.some false }] {}) {}
      = (Enhancements.new [⟨[⟨false, .none, .inApp false, "no"⟩], [],
          [.flag ⟨true, .app, Option.none⟩]⟩]).apply_modifications_to_frames falseSem
          [{}, { in_app := Option.some false }] {} :=
  ⟨fun m hm => by rw [List.mem_singleton.mp hm],
   fun fa hfa => by rw [Action.flag.inj (List.mem_singleton.mp hfa)],
   c9_modifier_pass_idempotent_local falseSem
     ⟨[⟨false, .none, .inApp false, "no"⟩], [], [.flag ⟨true, .app, Option.none⟩]⟩
     [{}, { in_app := Option.some false }] {}
     (fun m hm => by rw [List.mem_singleton.mp hm])
     (fun fa hfa => by rw [Action.flag.inj (List.mem_singleton.mp hfa)])⟩

end Ophio
